import Mathlib

/-!
Verification of `rule/savePostsData.js` (wechat_spider).

The file shallowly embeds the module's four units:
* `FindProfileHandler` (the coalescing profile-lookup cache) as an explicit
  state machine over event traces, since its behaviour is about interleavings
  of cooperative async calls;
* `savePostsData` (the bulk listing-ingestion path) as a pure function from a
  post store, a listing batch and a fallible profile-lookup oracle;
* `getPostDetail` (the deep single-article path) as a pure function from its
  inputs to the list of store writes it performs;
* `upsertPosts` (the standalone upsert primitive).

External collaborators (mongoose stores, the regex engine, cheerio, the
ContentHandler utility) are modelled at their interfaces: store operations
become explicit store-passing with mongo `$set`/upsert semantics, and the
regex/cheerio extraction outcomes are inputs to the model.
-/

namespace SavePostsData

/-- JS truthiness for an optional string value: `undefined`/`null` and the
empty string are falsy, every other string is truthy. -/
def truthy : Option String → Bool
  | none => false
  | some s => !(s == "")

/-- Point update of a map represented as a function. -/
def upd [DecidableEq κ] (m : κ → α) (k : κ) (v : α) : κ → α :=
  fun x => if x = k then v else m x

theorem upd_same [DecidableEq κ] (m : κ → α) (k : κ) (v : α) : upd m k v k = v := by
  simp [upd]

theorem upd_other [DecidableEq κ] (m : κ → α) {k x : κ} (v : α) (h : x ≠ k) :
    upd m k v x = m x := by
  simp [upd, h]

/-- Helper for substring search on character lists. -/
def subAt : List Char → List Char → Bool
  | pat, [] => pat.isEmpty
  | pat, c :: rest => pat.isPrefixOf (c :: rest) || subAt pat rest

/-- JS `s.indexOf(pat) > -1`: `pat` occurs as a contiguous substring of `s`. -/
def strContains (s pat : String) : Bool :=
  subAt pat.toList s.toList

/-- JS whitespace for `String.prototype.trim`. -/
def isJsWS (c : Char) : Bool :=
  (c == ' ') || (c == '\t') || (c == '\n') || (c == '\r')

/-- JS `s.trim()`: strip leading and trailing whitespace. Implemented by
structural recursion on the character list so that it evaluates. -/
def jsTrim (s : String) : String :=
  String.mk (((s.toList.dropWhile isJsWS).reverse.dropWhile isJsWS).reverse)

/-- The JS test `/[一-龥]/.test(s)`: some character lies in the common
CJK unified ideograph range. -/
def hasCJK (s : String) : Bool :=
  s.toList.any (fun c => decide (0x4e00 ≤ c.toNat ∧ c.toNat ≤ 0x9fa5))

/-! ## The profile documents and the `FindProfileHandler` cache

`models.Profile` documents, restricted to the fields this module reads or
writes (`title`, `wechatId`, `username`, `headimg`). A `none` field is one
absent from the document. -/

structure Profile where
  title : Option String
  wechatId : Option String
  username : Option String
  headimg : Option String
deriving DecidableEq

/-- State of one `FindProfileHandler` instance, plus bookkeeping for the
pending backing query and for observing each call's outcome.

* `profileMap` is the instance's `this.profileMap`: `none` means the key is
  absent; `some none` is the stored `null` (confirmed-absent) sentinel;
  `some (some p)` a stored document.
* `waiting` is `this.profileWaitingMap`: `none` when the key is absent,
  `some l` the ordered list of follower call ids whose `triggerFn` was pushed.
* `pendingLeader b = some i` records that call `i` is the leader currently
  awaiting `models.Profile.findOne` for key `b`.
* `queryCount b` counts the `models.Profile.findOne` calls issued for `b`.
* `callKey i` records which key call `i` was invoked with (`none`: call `i`
  has not happened); `results i = some v` records that call `i` returned `v`.
-/
structure FPState where
  profileMap : String → Option (Option Profile)
  waiting : String → Option (List Nat)
  pendingLeader : String → Option Nat
  queryCount : String → Nat
  callKey : Nat → Option String
  results : Nat → Option (Option Profile)

/-- Events of the cooperative (single-threaded, interleaved at `await` points)
execution of `find` calls on one handler instance:

* `arrive i b`: call `i` of `find(b)` runs its synchronous prefix — the
  `profileMap` check, then either the cached return, leader election
  (registering the empty waiting list and issuing the backing query), or
  registration as a follower;
* `complete b d`: the pending `findOne` for `b` resolves with `d` (`none` is
  the not-found case normalised to `null` by the source) and the leader's
  continuation runs: store the result in `profileMap`, release every waiter
  with the same result, delete the waiting list, return. -/
inductive FPEvent where
  | arrive (i : Nat) (biz : String)
  | complete (biz : String) (d : Option Profile)
deriving DecidableEq

/-- One transition of the handler model; `none` when the event is not enabled
(an already-used call id arrives, or a completion with no pending query). -/
def FPStep (s : FPState) : FPEvent → Option FPState
  | .arrive i b =>
    if s.callKey i = none then
      match s.profileMap b with
      | some v =>
        -- `if (doc || doc === null) return doc;`
        some { s with
          callKey := upd s.callKey i (some b),
          results := upd s.results i (some v) }
      | none =>
        match s.waiting b with
        | none =>
          -- first call for this key: register the empty waiting list and
          -- issue the backing `models.Profile.findOne({ msgBiz: biz })`
          some { s with
            callKey := upd s.callKey i (some b),
            waiting := upd s.waiting b (some []),
            pendingLeader := upd s.pendingLeader b (some i),
            queryCount := upd s.queryCount b (s.queryCount b + 1) }
        | some l =>
          -- in flight: push a `triggerFn` and suspend
          some { s with
            callKey := upd s.callKey i (some b),
            waiting := upd s.waiting b (some (l ++ [i])) }
    else none
  | .complete b d =>
    match s.pendingLeader b with
    | none => none
    | some ldr =>
      let ws := (s.waiting b).getD []
      some { s with
        profileMap := upd s.profileMap b (some d),
        waiting := upd s.waiting b none,
        pendingLeader := upd s.pendingLeader b none,
        results := fun j => if j = ldr ∨ j ∈ ws then some d else s.results j }

def runFPFrom (s : FPState) : List FPEvent → Option FPState
  | [] => some s
  | e :: es =>
    match FPStep s e with
    | none => none
    | some s2 => runFPFrom s2 es

/-- The state of a freshly constructed `FindProfileHandler`. -/
def initFP : FPState :=
  { profileMap := fun _ => none
    waiting := fun _ => none
    pendingLeader := fun _ => none
    queryCount := fun _ => 0
    callKey := fun _ => none
    results := fun _ => none }

/-- Run an event trace against a fresh handler instance. -/
def runFP (t : List FPEvent) : Option FPState :=
  runFPFrom initFP t

/-- The follower ids currently waiting on key `b`. -/
def waitList (s : FPState) (b : String) : List Nat :=
  (s.waiting b).getD []

/-- Reachability invariant of the handler model. -/
structure FPInv (s : FPState) : Prop where
  wl : ∀ b, (s.waiting b).isSome = (s.pendingLeader b).isSome
  pm : ∀ b, (s.profileMap b).isSome → s.waiting b = none
  qc : ∀ b, s.queryCount b =
    if (s.profileMap b).isSome || (s.waiting b).isSome then 1 else 0
  res : ∀ i b, s.callKey i = some b →
    (s.results i = none ∧ (s.pendingLeader b = some i ∨ i ∈ waitList s b)) ∨
    (∃ v, s.results i = some v ∧ s.profileMap b = some v)
  ldrK : ∀ b i, s.pendingLeader b = some i → s.callKey i = some b
  wK : ∀ b j, j ∈ waitList s b → s.callKey j = some b
  fresh : ∀ i, s.callKey i = none → s.results i = none

theorem initFP_inv : FPInv initFP := by
  constructor <;> intros <;> simp_all [initFP, waitList]
theorem FPStep_inv {s s2 : FPState} {e : FPEvent} (hs : FPInv s) (h : FPStep s e = some s2) :
    FPInv s2 := by
  cases e with
  | arrive i b =>
    by_cases hck : s.callKey i = none
    · simp only [FPStep, hck, if_true] at h
      cases hpm : s.profileMap b with
      | some v =>
        simp only [hpm] at h
        injection h with h
        subst h
        constructor
        · exact hs.wl
        · exact hs.pm
        · exact hs.qc
        · intro j bj hcall
          dsimp only at hcall ⊢
          by_cases hj : j = i
          · subst hj
            simp only [upd_same, Option.some.injEq] at hcall
            subst hcall
            exact Or.inr ⟨v, by simp [upd_same], hpm⟩
          · simp only [upd_other _ _ hj] at hcall
            rcases hs.res j bj hcall with ⟨hr, hor⟩ | ⟨w, hr, hm⟩
            · exact Or.inl ⟨by simp only [upd_other _ _ hj]; exact hr, hor⟩
            · exact Or.inr ⟨w, by simp only [upd_other _ _ hj]; exact hr, hm⟩
        · intro b2 j hld
          dsimp only at hld ⊢
          have hcj := hs.ldrK b2 j hld
          have hj : j ≠ i := fun hji => by rw [hji, hck] at hcj; exact Option.noConfusion hcj
          simp only [upd_other _ _ hj]
          exact hcj
        · intro b2 j hw2
          simp only [waitList] at hw2
          dsimp only at hw2 ⊢
          have hcj := hs.wK b2 j (by simp only [waitList]; exact hw2)
          have hj : j ≠ i := fun hji => by rw [hji, hck] at hcj; exact Option.noConfusion hcj
          simp only [upd_other _ _ hj]
          exact hcj
        · intro j hcj
          dsimp only at hcj ⊢
          by_cases hj : j = i
          · subst hj
            simp only [upd_same] at hcj
            exact Option.noConfusion hcj
          · simp only [upd_other _ _ hj] at hcj ⊢
            exact hs.fresh j hcj
      | none =>
        simp only [hpm] at h
        cases hw : s.waiting b with
        | none =>
          simp only [hw] at h
          injection h with h
          subst h
          have hq0 : s.queryCount b = 0 := by
            have hq := hs.qc b
            rw [hpm, hw] at hq
            simpa using hq
          constructor
          · intro b2
            dsimp only
            by_cases hb : b2 = b
            · subst b2; simp [upd_same]
            · simp only [upd_other _ _ hb]; exact hs.wl b2
          · intro b2 hsome
            dsimp only at hsome ⊢
            by_cases hb : b2 = b
            · subst b2; rw [hpm] at hsome; simp at hsome
            · simp only [upd_other _ _ hb]; exact hs.pm b2 hsome
          · intro b2
            dsimp only
            by_cases hb : b2 = b
            · subst b2
              simp [upd_same, hpm, hq0]
            · simp only [upd_other _ _ hb]; exact hs.qc b2
          · intro j bj hcall
            dsimp only at hcall ⊢
            by_cases hj : j = i
            · subst hj
              simp only [upd_same, Option.some.injEq] at hcall
              subst hcall
              exact Or.inl ⟨hs.fresh j hck, Or.inl (by simp [upd_same])⟩
            · simp only [upd_other _ _ hj] at hcall
              rcases hs.res j bj hcall with ⟨hr, hor⟩ | ⟨w, hr, hm⟩
              · by_cases hb : bj = b
                · subst bj
                  rcases hor with hor | hor
                  · have hwl := hs.wl b
                    rw [hw, hor] at hwl
                    simp at hwl
                  · rw [waitList, hw] at hor
                    simp at hor
                · refine Or.inl ⟨hr, ?_⟩
                  rcases hor with hor | hor
                  · exact Or.inl (by simp only [upd_other _ _ hb]; exact hor)
                  · refine Or.inr ?_
                    simp only [waitList, upd_other _ _ hb]
                    rw [waitList] at hor
                    exact hor
              · exact Or.inr ⟨w, hr, hm⟩
          · intro b2 j hld
            dsimp only at hld ⊢
            by_cases hb : b2 = b
            · subst b2
              simp only [upd_same, Option.some.injEq] at hld
              subst hld
              simp [upd_same]
            · simp only [upd_other _ _ hb] at hld
              have hcj := hs.ldrK b2 j hld
              have hj : j ≠ i := fun hji => by rw [hji, hck] at hcj; exact Option.noConfusion hcj
              simp only [upd_other _ _ hj]
              exact hcj
          · intro b2 j hw2
            simp only [waitList] at hw2
            dsimp only at hw2 ⊢
            by_cases hb : b2 = b
            · subst b2
              simp only [upd_same, Option.getD_some] at hw2
              simp at hw2
            · simp only [upd_other _ _ hb] at hw2
              have hcj := hs.wK b2 j (by rw [waitList]; exact hw2)
              have hj : j ≠ i := fun hji => by rw [hji, hck] at hcj; exact Option.noConfusion hcj
              simp only [upd_other _ _ hj]
              exact hcj
          · intro j hcj
            dsimp only at hcj ⊢
            by_cases hj : j = i
            · subst hj
              simp only [upd_same] at hcj
              exact Option.noConfusion hcj
            · simp only [upd_other _ _ hj] at hcj
              exact hs.fresh j hcj
        | some l =>
          simp only [hw] at h
          injection h with h
          subst h
          have hq1 : s.queryCount b = 1 := by
            have hq := hs.qc b
            rw [hpm, hw] at hq
            simpa using hq
          constructor
          · intro b2
            dsimp only
            by_cases hb : b2 = b
            · subst b2
              have hwl := hs.wl b
              rw [hw] at hwl
              simp only [upd_same]
              rw [← hwl]
              rfl
            · simp only [upd_other _ _ hb]; exact hs.wl b2
          · intro b2 hsome
            dsimp only at hsome ⊢
            by_cases hb : b2 = b
            · subst b2; rw [hpm] at hsome; simp at hsome
            · simp only [upd_other _ _ hb]; exact hs.pm b2 hsome
          · intro b2
            dsimp only
            by_cases hb : b2 = b
            · subst b2
              simp [upd_same, hpm, hq1]
            · simp only [upd_other _ _ hb]; exact hs.qc b2
          · intro j bj hcall
            dsimp only at hcall ⊢
            by_cases hj : j = i
            · subst hj
              simp only [upd_same, Option.some.injEq] at hcall
              subst hcall
              refine Or.inl ⟨hs.fresh j hck, Or.inr ?_⟩
              simp [waitList, upd_same]
            · simp only [upd_other _ _ hj] at hcall
              rcases hs.res j bj hcall with ⟨hr, hor⟩ | ⟨w, hr, hm⟩
              · refine Or.inl ⟨hr, ?_⟩
                rcases hor with hor | hor
                · exact Or.inl hor
                · refine Or.inr ?_
                  by_cases hb : bj = b
                  · subst bj
                    rw [waitList, hw] at hor
                    simp only [Option.getD_some] at hor
                    simp only [waitList, upd_same, Option.getD_some]
                    simp [hor]
                  · simp only [waitList, upd_other _ _ hb]
                    rw [waitList] at hor
                    exact hor
              · exact Or.inr ⟨w, hr, hm⟩
          · intro b2 j hld
            dsimp only at hld ⊢
            have hcj := hs.ldrK b2 j hld
            have hj : j ≠ i := fun hji => by rw [hji, hck] at hcj; exact Option.noConfusion hcj
            simp only [upd_other _ _ hj]
            exact hcj
          · intro b2 j hw2
            simp only [waitList] at hw2
            dsimp only at hw2 ⊢
            by_cases hb : b2 = b
            · subst b2
              simp only [upd_same, Option.getD_some, List.mem_append, List.mem_singleton] at hw2
              rcases hw2 with hw2 | hw2
              · have hcj := hs.wK b j (by rw [waitList, hw]; exact hw2)
                have hj : j ≠ i := fun hji => by rw [hji, hck] at hcj; exact Option.noConfusion hcj
                simp only [upd_other _ _ hj]
                exact hcj
              · subst hw2
                simp [upd_same]
            · simp only [upd_other _ _ hb] at hw2
              have hcj := hs.wK b2 j (by rw [waitList]; exact hw2)
              have hj : j ≠ i := fun hji => by rw [hji, hck] at hcj; exact Option.noConfusion hcj
              simp only [upd_other _ _ hj]
              exact hcj
          · intro j hcj
            dsimp only at hcj ⊢
            by_cases hj : j = i
            · subst hj
              simp only [upd_same] at hcj
              exact Option.noConfusion hcj
            · simp only [upd_other _ _ hj] at hcj
              exact hs.fresh j hcj
    · simp [FPStep, hck] at h
  | complete b d =>
    simp only [FPStep] at h
    cases hld : s.pendingLeader b with
    | none => simp [hld] at h
    | some ldr =>
      rw [hld] at h
      injection h with h
      subst h
      have hwsome : (s.waiting b).isSome = true := by
        rw [hs.wl b, hld]; rfl
      have hldK := hs.ldrK b ldr hld
      have hq1 : s.queryCount b = 1 := by
        have hq := hs.qc b
        rw [hwsome] at hq
        simpa using hq
      constructor
      · intro b2
        dsimp only
        by_cases hb : b2 = b
        · subst b2; simp [upd_same]
        · simp only [upd_other _ _ hb]; exact hs.wl b2
      · intro b2 hsome
        dsimp only at hsome ⊢
        by_cases hb : b2 = b
        · subst b2; simp [upd_same]
        · simp only [upd_other _ _ hb] at hsome ⊢
          exact hs.pm b2 hsome
      · intro b2
        dsimp only
        by_cases hb : b2 = b
        · subst b2
          simp [upd_same, hq1]
        · simp only [upd_other _ _ hb]; exact hs.qc b2
      · intro j bj hcall
        dsimp only at hcall ⊢
        by_cases hj : j = ldr ∨ j ∈ (s.waiting b).getD []
        · have hbj : bj = b := by
            rcases hj with hj | hj
            · subst hj
              rw [hldK] at hcall
              exact (Option.some.inj hcall).symm
            · have hk := hs.wK b j (by rw [waitList]; exact hj)
              rw [hk] at hcall
              exact (Option.some.inj hcall).symm
          subst bj
          exact Or.inr ⟨d, by simp only [hj, if_true], by simp only [upd_same]⟩
        · rcases hs.res j bj hcall with ⟨hr, hor⟩ | ⟨w, hr, hm⟩
          · have hbj : bj ≠ b := by
              intro hbj
              subst bj
              rcases hor with hor | hor
              · rw [hld] at hor
                exact hj (Or.inl (Option.some.inj hor).symm)
              · rw [waitList] at hor
                exact hj (Or.inr hor)
            refine Or.inl ⟨by simp only [hj, if_false]; exact hr, ?_⟩
            rcases hor with hor | hor
            · exact Or.inl (by simp only [upd_other _ _ hbj]; exact hor)
            · refine Or.inr ?_
              simp only [waitList, upd_other _ _ hbj]
              rw [waitList] at hor
              exact hor
          · have hbj : bj ≠ b := by
              intro hbj
              subst bj
              have hpmn := hs.pm b (by rw [hm]; rfl)
              rw [hpmn] at hwsome
              exact Bool.noConfusion hwsome
            exact Or.inr ⟨w, by simp only [hj, if_false]; exact hr,
              by simp only [upd_other _ _ hbj]; exact hm⟩
      · intro b2 j hld2
        dsimp only at hld2 ⊢
        by_cases hb : b2 = b
        · subst b2
          simp only [upd_same] at hld2
          exact Option.noConfusion hld2
        · simp only [upd_other _ _ hb] at hld2
          exact hs.ldrK b2 j hld2
      · intro b2 j hw2
        simp only [waitList] at hw2
        dsimp only at hw2 ⊢
        by_cases hb : b2 = b
        · subst b2
          simp only [upd_same] at hw2
          simp at hw2
        · simp only [upd_other _ _ hb] at hw2
          exact hs.wK b2 j (by rw [waitList]; exact hw2)
      · intro j hcj
        dsimp only at hcj ⊢
        have hj : ¬ (j = ldr ∨ j ∈ (s.waiting b).getD []) := by
          rintro (hj | hj)
          · subst hj
            rw [hldK] at hcj
            exact Option.noConfusion hcj
          · have hk := hs.wK b j (by rw [waitList]; exact hj)
            rw [hk] at hcj
            exact Option.noConfusion hcj
        simp only [hj, if_false]
        exact hs.fresh j hcj

theorem runFPFrom_inv : ∀ {t : List FPEvent} {s s2 : FPState},
    FPInv s → runFPFrom s t = some s2 → FPInv s2 := by
  intro t
  induction t with
  | nil => intro s s2 hs h; injection h with h; subst h; exact hs
  | cons e es ih =>
    intro s s2 hs h
    simp only [runFPFrom] at h
    cases he : FPStep s e with
    | none => rw [he] at h; exact Option.noConfusion h
    | some s1 =>
      rw [he] at h
      exact ih (FPStep_inv hs he) h

theorem FPStep_mapStable {s s2 : FPState} {e : FPEvent} {b : String} {d : Option Profile}
    (hs : FPInv s) (h : FPStep s e = some s2) (hb : s.profileMap b = some d) :
    s2.profileMap b = some d := by
  cases e with
  | arrive i b2 =>
    by_cases hck : s.callKey i = none
    · simp only [FPStep, hck, if_true] at h
      cases hpm : s.profileMap b2 with
      | some v =>
        simp only [hpm] at h
        injection h with h
        subst h
        exact hb
      | none =>
        simp only [hpm] at h
        cases hw : s.waiting b2 with
        | none => simp only [hw] at h; injection h with h; subst h; exact hb
        | some l => simp only [hw] at h; injection h with h; subst h; exact hb
    · simp [FPStep, hck] at h
  | complete b2 d2 =>
    simp only [FPStep] at h
    cases hld : s.pendingLeader b2 with
    | none => simp [hld] at h
    | some ldr =>
      rw [hld] at h
      injection h with h
      subst h
      dsimp only
      by_cases hbb : b = b2
      · subst b
        have hwn := hs.pm b2 (by rw [hb]; rfl)
        have hwl := hs.wl b2
        rw [hwn, hld] at hwl
        exact Bool.noConfusion hwl
      · rw [upd_other _ _ hbb]
        exact hb

theorem runFPFrom_mapStable : ∀ {t : List FPEvent} {s s2 : FPState} {b : String}
    {d : Option Profile}, FPInv s → runFPFrom s t = some s2 →
    s.profileMap b = some d → s2.profileMap b = some d := by
  intro t
  induction t with
  | nil => intro s s2 b d _ h hb; injection h with h; subst h; exact hb
  | cons e es ih =>
    intro s s2 b d hs h hb
    simp only [runFPFrom] at h
    cases he : FPStep s e with
    | none => rw [he] at h; exact Option.noConfusion h
    | some s1 =>
      rw [he] at h
      exact ih (FPStep_inv hs he) h (FPStep_mapStable hs he hb)

theorem runFPFrom_append (t1 t2 : List FPEvent) : ∀ s : FPState,
    runFPFrom s (t1 ++ t2) = (runFPFrom s t1).bind (fun s1 => runFPFrom s1 t2) := by
  induction t1 with
  | nil => intro s; rfl
  | cons e es ih =>
    intro s
    simp only [List.cons_append, runFPFrom]
    cases FPStep s e with
    | none => rfl
    | some s1 => exact ih s1

/-- After a `complete b d` event occurs in a valid trace from a fresh handler,
the final state satisfies the invariant and caches `d` for key `b` forever. -/
theorem runFP_after_complete {t : List FPEvent} {s : FPState} {b : String} {d : Option Profile}
    (h : runFP t = some s) (hc : FPEvent.complete b d ∈ t) :
    FPInv s ∧ s.profileMap b = some d := by
  obtain ⟨t1, t2, rfl⟩ := List.append_of_mem hc
  rw [runFP, runFPFrom_append] at h
  cases h1 : runFPFrom initFP t1 with
  | none => rw [h1] at h; exact Option.noConfusion h
  | some s1 =>
    rw [h1, Option.some_bind] at h
    have hs1 : FPInv s1 := runFPFrom_inv initFP_inv h1
    simp only [runFPFrom] at h
    cases h2 : FPStep s1 (FPEvent.complete b d) with
    | none => rw [h2] at h; exact Option.noConfusion h
    | some s2 =>
      rw [h2] at h
      have hs2 : FPInv s2 := FPStep_inv hs1 h2
      have hmap2 : s2.profileMap b = some d := by
        simp only [FPStep] at h2
        cases hld : s1.pendingLeader b with
        | none => simp [hld] at h2
        | some ldr =>
          rw [hld] at h2
          injection h2 with h2
          subst h2
          dsimp only
          rw [upd_same]
      exact ⟨runFPFrom_inv hs2 h, runFPFrom_mapStable hs2 h hmap2⟩

/-- C1: on one `FindProfileHandler` instance, any number of concurrent
`find(biz)` calls that interleave with the single backing-query completion for
that key result in exactly one `models.Profile.findOne` being issued for the
key, and every call for that key — leader, follower, or late arrival — returns
the leader's result `d` (including the confirmed-absent sentinel `d = none`). -/
theorem findProfile_single_flight (t : List FPEvent) (b : String) (d : Option Profile)
    (hval : (runFP t).isSome = true) (hc : FPEvent.complete b d ∈ t) :
    ∃ s, runFP t = some s ∧ s.queryCount b = 1 ∧
      ∀ i, s.callKey i = some b → s.results i = some d := by
  obtain ⟨s, hs⟩ := Option.isSome_iff_exists.mp hval
  obtain ⟨hinv, hmap⟩ := runFP_after_complete hs hc
  refine ⟨s, hs, ?_, ?_⟩
  · have hq := hinv.qc b
    rw [hmap] at hq
    simpa using hq
  · intro i hci
    rcases hinv.res i b hci with ⟨hr, hor⟩ | ⟨v, hr, hm⟩
    · have hwn := hinv.pm b (by rw [hmap]; rfl)
      rcases hor with hor | hor
      · have hwl := hinv.wl b
        rw [hwn, hor] at hwl
        exact Bool.noConfusion hwl
      · rw [waitList, hwn] at hor
        simp at hor
    · rw [hmap] at hm
      rw [hr, Option.some.inj hm]

/-- Concrete trace for the single-flight theorem: three calls for key `b`, two
arriving while the query is in flight, one after completion. -/
def c1Trace : List FPEvent :=
  [FPEvent.arrive 0 "b", FPEvent.arrive 1 "b", FPEvent.complete "b" none, FPEvent.arrive 2 "b"]

theorem findProfile_single_flight_witness :
    ((runFP c1Trace).isSome = true ∧ FPEvent.complete "b" none ∈ c1Trace) ∧
      (∃ s, runFP c1Trace = some s ∧ s.queryCount "b" = 1 ∧
        ∀ i, s.callKey i = some "b" → s.results i = some none) :=
  ⟨⟨by decide, by decide⟩,
    findProfile_single_flight c1Trace "b" none (by decide) (by decide)⟩

/-- C2 (amended to the handler instance's lifetime): once a first `find(b)`
call on a `FindProfileHandler` instance has completed — with a found document
or with the absent sentinel — a subsequent `find(b)` call on the same instance
returns the cached result immediately and issues no further backing query:
the instance's query count for the key stays at its value 1. -/
theorem findProfile_cached_after_complete (t : List FPEvent) (b : String)
    (d : Option Profile) (i : Nat)
    (hval : (runFP t).isSome = true) (hc : FPEvent.complete b d ∈ t)
    (hfresh : (runFP t).map (fun s => s.callKey i) = some none) :
    ∃ s s2, runFP t = some s ∧ FPStep s (FPEvent.arrive i b) = some s2 ∧
      s2.results i = some d ∧ s2.queryCount b = s.queryCount b ∧ s.queryCount b = 1 := by
  obtain ⟨s, hs⟩ := Option.isSome_iff_exists.mp hval
  obtain ⟨hinv, hmap⟩ := runFP_after_complete hs hc
  rw [hs] at hfresh
  simp at hfresh
  have hstep : FPStep s (FPEvent.arrive i b) =
      some { s with callKey := upd s.callKey i (some b),
                    results := upd s.results i (some d) } := by
    simp [FPStep, hfresh, hmap]
  refine ⟨s, _, hs, hstep, ?_, rfl, ?_⟩
  · simp [upd_same]
  · have hq := hinv.qc b
    rw [hmap] at hq
    simpa using hq

def c2Trace : List FPEvent :=
  [FPEvent.arrive 0 "bz", FPEvent.complete "bz" none]

theorem findProfile_cached_after_complete_witness :
    ((runFP c2Trace).isSome = true ∧ FPEvent.complete "bz" none ∈ c2Trace ∧
      (runFP c2Trace).map (fun s => s.callKey 1) = some none) ∧
      (∃ s s2, runFP c2Trace = some s ∧ FPStep s (FPEvent.arrive 1 "bz") = some s2 ∧
        s2.results 1 = some none ∧ s2.queryCount "bz" = s.queryCount "bz" ∧
        s.queryCount "bz" = 1) :=
  ⟨⟨by decide, by decide, by decide⟩,
    findProfile_cached_after_complete c2Trace "bz" none 1 (by decide) (by decide) (by decide)⟩

/-! ## Process-level model: one handler instance per `savePostsData` call

`savePostsData` constructs `new FindProfileHandler()` on every invocation
(line 81 of the source), so the `profileMap` cache lives only as long as one
bulk batch, not as long as the process. The process model tracks any number
of handler instances, each starting in the fresh state. -/

inductive ProcEvent where
  | newHandler
  | fp (h : Nat) (e : FPEvent)
deriving DecidableEq

structure ProcState where
  numHandlers : Nat
  inst : Nat → FPState

def ProcStep (s : ProcState) : ProcEvent → Option ProcState
  | .newHandler => some { s with numHandlers := s.numHandlers + 1 }
  | .fp h e =>
    if h < s.numHandlers then
      (FPStep (s.inst h) e).map (fun s2 => { s with inst := upd s.inst h s2 })
    else none

def runProcFrom (s : ProcState) : List ProcEvent → Option ProcState
  | [] => some s
  | e :: es =>
    match ProcStep s e with
    | none => none
    | some s2 => runProcFrom s2 es

def initProc : ProcState :=
  { numHandlers := 0, inst := fun _ => initFP }

def runProc (t : List ProcEvent) : Option ProcState :=
  runProcFrom initProc t

/-- Total number of `models.Profile.findOne` calls issued for key `b` across
all handler instances of the process. -/
def procQueryCount (s : ProcState) (b : String) : Nat :=
  (List.range s.numHandlers).foldl (fun a h => a + (s.inst h).queryCount b) 0

/-- Process trace of one `savePostsData` batch whose handler resolves `"b"`
to the absent sentinel, the first `find("b")` call completing fully. -/
def c2PrefixTrace : List ProcEvent :=
  [ProcEvent.newHandler, ProcEvent.fp 0 (FPEvent.arrive 0 "b"),
   ProcEvent.fp 0 (FPEvent.complete "b" none)]

/-- The same process continuing with a second `savePostsData` batch: a fresh
handler instance is constructed and its `find("b")` call queries the backing
store again. -/
def c2FullTrace : List ProcEvent :=
  c2PrefixTrace ++
    [ProcEvent.newHandler, ProcEvent.fp 1 (FPEvent.arrive 0 "b"),
     ProcEvent.fp 1 (FPEvent.complete "b" none)]

/-- C2 counterexample: after the first `find("b")` call has completed (with
the absent sentinel) and one backing query has been issued, a later
`find("b")` call in the same process — made through the new handler instance
that the next `savePostsData` invocation constructs — issues a second backing
query for the same key. So a subsequent call during the process lifetime does
not always reuse the first call's cached result. -/
theorem findProfile_process_lifetime_counterexample :
    (runProc c2PrefixTrace).map (fun s => procQueryCount s "b") = some 1 ∧
    (runProc c2PrefixTrace).map (fun s => (s.inst 0).results 0) = some (some none) ∧
    (runProc c2FullTrace).map (fun s => procQueryCount s "b") = some 2 ∧
    (runProc c2FullTrace).map (fun s => (s.inst 1).results 0) = some (some none) := by
  refine ⟨?_, ?_, ?_, ?_⟩ <;> decide

/-! ## `models.Post` documents and the deep-ingestion path `getPostDetail`

A `Post` document restricted to the fields this module reads or writes. The
same structure also stands for a `$set` update object: a `none` field is one
absent from the document (resp. absent from the update). -/

structure Post where
  msgBiz : Option String
  msgMid : Option String
  msgIdx : Option String
  title : Option String
  link : Option String
  publishAt : Option Nat
  cover : Option String
  digest : Option String
  sourceUrl : Option String
  author : Option String
  copyrightStat : Option Nat
  wechatId : Option String
  content : Option String
  html : Option String
  viewed : Option Bool
  imported : Option Bool
  isFail : Option Bool
deriving DecidableEq

def emptyPost : Post :=
  { msgBiz := none, msgMid := none, msgIdx := none, title := none, link := none,
    publishAt := none, cover := none, digest := none, sourceUrl := none,
    author := none, copyrightStat := none, wechatId := none, content := none,
    html := none, viewed := none, imported := none, isFail := none }

/-- The identifying triple of an article once all three components are known
to be present (the code aborts otherwise). -/
structure PostKey where
  msgBiz : String
  msgMid : String
  msgIdx : String
deriving DecidableEq

/-- Source `config.rule.page`, restricted to the fields the module reads. -/
structure PageConfig where
  isSavePostContent : Bool
  saveContentType : String
deriving DecidableEq

/-- Result of `ch.getIdentifying()` (the external `ContentHandler` utility):
the possibly-missing identifying components extracted from the link or the
fetched body. -/
structure Identified where
  msgBiz : Option String
  msgMid : Option String
  msgIdx : Option String
deriving DecidableEq

/-- Outcomes of the `getTarget` regex extractions over the body, of the
`parseInt` on the publish epoch, and of the cheerio `#js_content` lookup.
The regex engine and cheerio are external, so their outcomes are inputs to
the model; each field is independently optional, matching the tolerant
extraction in the source. -/
structure Extracted where
  wechatId : Option String
  username : Option String
  title : Option String
  publishAt : Option Nat
  sourceUrl : Option String
  cover : Option String
  digest : Option String
  headimg : Option String
  nickname : Option String
  jsContentHtml : Option String
deriving DecidableEq

/-- All inputs of one `getPostDetail(link, body)` run: the link (empty string
for a falsy argument), the identifying triple, the fetched body, the
extraction outcomes, the pre-existing `models.Post.findOne` and
`models.Profile.findOne` results, and the page configuration. -/
structure DetailInput where
  link : String
  ident : Identified
  body : String
  ex : Extracted
  doc : Option Post
  profile : Option Profile
  cfg : PageConfig
deriving DecidableEq

/-- The store writes `getPostDetail` can perform, in order:
`postFail` is `findOneAndUpdate({id}, {isFail: true}, {upsert})`;
`postBasic` is the basic-fields `$set` upsert; `profileSet` the profile
`$set` upsert; `postContent` the content-body `$set` upsert. -/
inductive Effect where
  | postFail (k : PostKey)
  | postBasic (k : PostKey) (u : Post)
  | profileSet (biz : String) (u : Profile)
  | postContent (k : PostKey) (u : Post)
deriving DecidableEq

/-- Source line `if (!msgBiz || !msgMid || !msgIdx) return;`. -/
def keyOf (id : Identified) : Option PostKey :=
  if truthy id.msgBiz && truthy id.msgMid && truthy id.msgIdx then
    some ⟨id.msgBiz.getD "", id.msgMid.getD "", id.msgIdx.getD ""⟩
  else none

/-- Source line `if (wechatId && /[一-龥]/.test(wechatId)) wechatId = username;`. -/
def effectiveWechatId (ex : Extracted) : Option String :=
  if truthy ex.wechatId && hasCJK (ex.wechatId.getD "") then ex.username else ex.wechatId

/-- Source check `doc && doc.title && doc.link && doc.wechatId`: the existing Article
record is complete, so the basic-fields write is skipped. -/
def docComplete : Option Post → Bool
  | none => false
  | some d => truthy d.title && truthy d.link && truthy d.wechatId

/-- Source check `profile && profile.wechatId && profile.username && profile.headimg`. -/
def profileComplete : Option Profile → Bool
  | none => false
  | some p => truthy p.wechatId && truthy p.username && truthy p.headimg

/-- The `updateObj` of the basic-fields write: always the key fields and the
link, plus each extracted field that is truthy. -/
def basicUpdate (inp : DetailInput) (k : PostKey) (wid : Option String) : Post :=
  { emptyPost with
      msgBiz := some k.msgBiz, msgMid := some k.msgMid, msgIdx := some k.msgIdx,
      link := some inp.link,
      title := if truthy inp.ex.title then inp.ex.title else none,
      wechatId := if truthy wid then wid else none,
      publishAt := if inp.ex.publishAt.isSome then inp.ex.publishAt else none,
      sourceUrl := if truthy inp.ex.sourceUrl then inp.ex.sourceUrl else none,
      cover := if truthy inp.ex.cover then inp.ex.cover else none,
      digest := if truthy inp.ex.digest then inp.ex.digest else none }

/-- The `updateObj` of the profile write (`{ msgBiz }` plus each truthy
extracted field; the nickname becomes the profile title). -/
def profileUpdate (ex : Extracted) (wid : Option String) : Profile :=
  { title := if truthy ex.nickname then ex.nickname else none,
    wechatId := if truthy wid then wid else none,
    username := if truthy ex.username then ex.username else none,
    headimg := if truthy ex.headimg then ex.headimg else none }

/-- The `updateObj` of the content write: key fields, the html when truthy,
and the `viewed`/`imported` flags. -/
def contentUpdate (k : PostKey) (html1 : Option String) : Post :=
  { emptyPost with
      msgBiz := some k.msgBiz, msgMid := some k.msgMid, msgIdx := some k.msgIdx,
      html := if truthy html1 then html1 else none,
      viewed := some true, imported := some false }

/-- The `// 保存正文内容` block of the deep path (source lines 228-268), as
the list of writes it performs. `shouldSaveToDb` reproduces the source
exactly: it is initialised `true` and both conditional arms re-assign `true`,
so it is never `false`. The `content` variable is never assigned in the
source (its assignments are commented out), so only `html` can trigger the
content write. -/
def contentEffects (inp : DetailInput) (k : PostKey) : List Effect :=
  if inp.cfg.isSavePostContent then
    let shouldSaveToDb :=
      match inp.doc with
      | some d =>
        if truthy d.html && (inp.cfg.saveContentType == "html") then true
        else if truthy d.content && (inp.cfg.saveContentType == "text") then true
        else true
      | none => true
    if shouldSaveToDb then
      let html0 : Option String :=
        if inp.cfg.saveContentType == "html" then some (inp.ex.jsContentHtml.getD "")
        else none
      let html1 : Option String :=
        if truthy html0 then html0.map jsTrim else html0
      let content : Option String := none
      if truthy content || truthy html1 then [Effect.postContent k (contentUpdate k html1)]
      else []
    else []
  else []

/-- The deep-ingestion path, as the list of store writes it performs.

Follows the source line by line: falsy link aborts; missing identity aborts
with a warning; an invalidation marker (`global_error_msg` or
`icon_msg warn` in the body) persists `isFail` and stops; otherwise the
basic-fields write happens unless the existing record is complete, the
profile write unless the existing profile is complete, and then the content
block (`contentEffects`) runs. -/
def getPostDetail (inp : DetailInput) : List Effect :=
  if inp.link = "" then []
  else
    match keyOf inp.ident with
    | none => []
    | some k =>
      if strContains inp.body "global_error_msg" || strContains inp.body "icon_msg warn" then
        [Effect.postFail k]
      else
        let wid := effectiveWechatId inp.ex
        let e1 : List Effect :=
          if docComplete inp.doc then [] else [Effect.postBasic k (basicUpdate inp k wid)]
        let e2 : List Effect :=
          if profileComplete inp.profile then []
          else [Effect.profileSet k.msgBiz (profileUpdate inp.ex wid)]
        e1 ++ e2 ++ contentEffects inp k

/-! ## Mongo `$set`-with-upsert semantics over explicit stores -/

/-- One `$set` field: the update value when present, else the old value. -/
def mergeField (old new : Option α) : Option α :=
  match new with
  | some v => some v
  | none => old

def applySet (p u : Post) : Post :=
  { msgBiz := mergeField p.msgBiz u.msgBiz
    msgMid := mergeField p.msgMid u.msgMid
    msgIdx := mergeField p.msgIdx u.msgIdx
    title := mergeField p.title u.title
    link := mergeField p.link u.link
    publishAt := mergeField p.publishAt u.publishAt
    cover := mergeField p.cover u.cover
    digest := mergeField p.digest u.digest
    sourceUrl := mergeField p.sourceUrl u.sourceUrl
    author := mergeField p.author u.author
    copyrightStat := mergeField p.copyrightStat u.copyrightStat
    wechatId := mergeField p.wechatId u.wechatId
    content := mergeField p.content u.content
    html := mergeField p.html u.html
    viewed := mergeField p.viewed u.viewed
    imported := mergeField p.imported u.imported
    isFail := mergeField p.isFail u.isFail }

/-- The `models.Post` collection as seen by the deep path, keyed by the full
identifying triple. -/
def PostStore := PostKey → Option Post

/-- Mongo `findOneAndUpdate({msgBiz,msgMid,msgIdx}, {$set: u}, {upsert: true})`:
merge into the existing document, or create one from the filter key and the
update. -/
def postUpsert (store : PostStore) (k : PostKey) (u : Post) : PostStore :=
  let base :=
    match store k with
    | some p => p
    | none => { emptyPost with
        msgBiz := some k.msgBiz, msgMid := some k.msgMid, msgIdx := some k.msgIdx }
  upd store k (some (applySet base u))

def ProfileStore := String → Option Profile

def applyProfileSet (p u : Profile) : Profile :=
  { title := mergeField p.title u.title
    wechatId := mergeField p.wechatId u.wechatId
    username := mergeField p.username u.username
    headimg := mergeField p.headimg u.headimg }

def profileUpsert (store : ProfileStore) (b : String) (u : Profile) : ProfileStore :=
  let base :=
    match store b with
    | some p => p
    | none => { title := none, wechatId := none, username := none, headimg := none }
  upd store b (some (applyProfileSet base u))

def applyEffect (st : PostStore × ProfileStore) : Effect → PostStore × ProfileStore
  | Effect.postFail k => (postUpsert st.1 k { emptyPost with isFail := some true }, st.2)
  | Effect.postBasic k u => (postUpsert st.1 k u, st.2)
  | Effect.postContent k u => (postUpsert st.1 k u, st.2)
  | Effect.profileSet b u => (st.1, profileUpsert st.2 b u)

def applyEffects (st : PostStore × ProfileStore) (es : List Effect) :
    PostStore × ProfileStore :=
  es.foldl applyEffect st

/-- The completeness-relevant projection of an Article record. -/
def basicProj (p : Post) : Option String × Option String × Option String :=
  (p.title, p.link, p.wechatId)

theorem basicProj_applySet (p u : Post) (ht : u.title = none) (hl : u.link = none)
    (hw : u.wechatId = none) : basicProj (applySet p u) = basicProj p := by
  simp [basicProj, applySet, mergeField, ht, hl, hw]

theorem postUpsert_basicProj (ps : PostStore) (k : PostKey) (u : Post) (d : Post)
    (hk : ps k = some d) (ht : u.title = none) (hl : u.link = none)
    (hw : u.wechatId = none) :
    ∀ k2, (postUpsert ps k u k2).map basicProj = (ps k2).map basicProj := by
  intro k2
  by_cases h : k2 = k
  · subst k2
    simp [postUpsert, hk, upd_same, basicProj_applySet _ _ ht hl hw]
  · simp [postUpsert, upd_other _ _ h]

/-- The content block writes nothing, or exactly one content update at the
resolved key. -/
theorem contentEffects_shape (inp : DetailInput) (k : PostKey) :
    contentEffects inp k = [] ∨
      ∃ h1, contentEffects inp k = [Effect.postContent k (contentUpdate k h1)] := by
  unfold contentEffects
  dsimp only
  repeat' split
  all_goals first
    | exact Or.inl rfl
    | exact Or.inr ⟨_, rfl⟩

/-- The deep path writes nothing, only the invalidation write, or the
basic/profile writes each gated by its own completeness check followed by
the content block. -/
theorem getPostDetail_shape (inp : DetailInput) :
    getPostDetail inp = [] ∨
      (∃ k, keyOf inp.ident = some k ∧ getPostDetail inp = [Effect.postFail k]) ∨
      (∃ k, keyOf inp.ident = some k ∧
        getPostDetail inp =
          (if docComplete inp.doc then []
            else [Effect.postBasic k (basicUpdate inp k (effectiveWechatId inp.ex))]) ++
          (if profileComplete inp.profile then []
            else [Effect.profileSet k.msgBiz (profileUpdate inp.ex (effectiveWechatId inp.ex))]) ++
          contentEffects inp k) := by
  unfold getPostDetail
  by_cases hl : inp.link = ""
  · rw [if_pos hl]
    exact Or.inl rfl
  · rw [if_neg hl]
    cases hk : keyOf inp.ident with
    | none => exact Or.inl rfl
    | some k =>
      dsimp only
      by_cases hm : (strContains inp.body "global_error_msg" ||
          strContains inp.body "icon_msg warn") = true
      · rw [if_pos hm]
        exact Or.inr (Or.inl ⟨k, rfl, rfl⟩)
      · rw [if_neg hm]
        exact Or.inr (Or.inr ⟨k, rfl, rfl⟩)

theorem applyEffect_snd_nonprofile (st : PostStore × ProfileStore) (e : Effect)
    (h : ∀ b u, e ≠ Effect.profileSet b u) : (applyEffect st e).2 = st.2 := by
  cases e
  · rfl
  · rfl
  · exact absurd rfl (h _ _)
  · rfl

theorem applyEffects_snd (es : List Effect) : ∀ (st : PostStore × ProfileStore),
    (∀ b u, Effect.profileSet b u ∉ es) → (applyEffects st es).2 = st.2 := by
  induction es with
  | nil => intro st _; rfl
  | cons e r ih =>
    intro st h
    have he : ∀ b u, e ≠ Effect.profileSet b u := by
      intro b u heq
      exact h b u (by rw [heq]; exact List.mem_cons_self _ _)
    have hr : ∀ b u, Effect.profileSet b u ∉ r := by
      intro b u hmem
      exact h b u (List.mem_cons_of_mem _ hmem)
    have h2 : applyEffects st (e :: r) = applyEffects (applyEffect st e) r := rfl
    rw [h2, ih _ hr, applyEffect_snd_nonprofile st e he]

/-- The Article half of the fill-gaps-only policy: an already-complete
existing record (title, link and identifier all present) means the deep path
performs no basic-fields write and leaves the title/link/wechatId projection
of every stored article unchanged. -/
def fillGapsArticle (inp : DetailInput) (ps : PostStore) (fs : ProfileStore) : Prop :=
  docComplete inp.doc = true →
    (∀ k u, Effect.postBasic k u ∉ getPostDetail inp) ∧
    ∀ k, ((applyEffects (ps, fs) (getPostDetail inp)).1 k).map basicProj
      = (ps k).map basicProj

/-- The Profile half: an already-complete existing profile (identifier,
username and avatar all present) means no profile write at all — the profile
store is left untouched. -/
def fillGapsProfile (inp : DetailInput) (ps : PostStore) (fs : ProfileStore) : Prop :=
  profileComplete inp.profile = true →
    (∀ b u, Effect.profileSet b u ∉ getPostDetail inp) ∧
    (applyEffects (ps, fs) (getPostDetail inp)).2 = fs

/-- C3: fill-gaps-only holds on the deep path — a complete existing Article
record suppresses the basic-fields write and leaves those fields unchanged,
and, independently, a complete existing PublisherProfile suppresses the
profile write entirely. -/
theorem deepIngest_fill_gaps_only (inp : DetailInput) (ps : PostStore) (fs : ProfileStore)
    (hstore : ∀ k, keyOf inp.ident = some k → ps k = inp.doc) :
    fillGapsArticle inp ps fs ∧ fillGapsProfile inp ps fs := by
  have hdoc : ∀ k, keyOf inp.ident = some k → docComplete inp.doc = true →
      ∃ d, ps k = some d := by
    intro k hk hd
    cases h2 : inp.doc with
    | none => rw [h2] at hd; simp [docComplete] at hd
    | some d => exact ⟨d, by rw [hstore k hk, h2]⟩
  rcases getPostDetail_shape inp with h | ⟨k, hk, h⟩ | ⟨k, hk, h⟩
  · rw [fillGapsArticle, fillGapsProfile, h]
    exact ⟨fun _ => ⟨by simp, fun k => rfl⟩, fun _ => ⟨by simp, rfl⟩⟩
  · rw [fillGapsArticle, fillGapsProfile, h]
    constructor
    · intro hd
      obtain ⟨d, hkd⟩ := hdoc k hk hd
      refine ⟨by simp, ?_⟩
      intro k2
      have h2 : applyEffects (ps, fs) [Effect.postFail k] =
          (postUpsert ps k { emptyPost with isFail := some true }, fs) := rfl
      rw [h2]
      exact postUpsert_basicProj ps k _ d hkd rfl rfl rfl k2
    · intro _
      exact ⟨by simp, rfl⟩
  · rw [fillGapsArticle, fillGapsProfile, h]
    constructor
    · intro hd
      obtain ⟨d, hkd⟩ := hdoc k hk hd
      rw [if_pos hd]
      simp only [List.nil_append]
      constructor
      · intro k2 u2 hmem
        rcases contentEffects_shape inp k with hc | ⟨h1, hc⟩ <;>
          rw [hc] at hmem <;>
          by_cases hp2 : profileComplete inp.profile = true <;>
          simp [hp2] at hmem
      · intro k2
        rcases contentEffects_shape inp k with hc | ⟨h1, hc⟩ <;> rw [hc] <;>
          by_cases hp2 : profileComplete inp.profile = true
        · rw [if_pos hp2]
          rfl
        · rw [if_neg hp2]
          have h2 : applyEffects (ps, fs)
              ([Effect.profileSet k.msgBiz (profileUpdate inp.ex (effectiveWechatId inp.ex))]
                ++ []) = (ps, profileUpsert fs k.msgBiz
                  (profileUpdate inp.ex (effectiveWechatId inp.ex))) := rfl
          rw [h2]
        · rw [if_pos hp2]
          have h2 : applyEffects (ps, fs)
              ([] ++ [Effect.postContent k (contentUpdate k h1)]) =
              (postUpsert ps k (contentUpdate k h1), fs) := rfl
          rw [h2]
          exact postUpsert_basicProj ps k _ d hkd rfl rfl rfl k2
        · rw [if_neg hp2]
          have h2 : applyEffects (ps, fs)
              ([Effect.profileSet k.msgBiz (profileUpdate inp.ex (effectiveWechatId inp.ex))]
                ++ [Effect.postContent k (contentUpdate k h1)]) =
              (postUpsert ps k (contentUpdate k h1),
                profileUpsert fs k.msgBiz (profileUpdate inp.ex (effectiveWechatId inp.ex))) :=
            rfl
          rw [h2]
          exact postUpsert_basicProj ps k _ d hkd rfl rfl rfl k2
    · intro hp
      rw [if_pos hp]
      constructor
      · intro b2 u2 hmem
        rcases contentEffects_shape inp k with hc | ⟨h1, hc⟩ <;>
          rw [hc] at hmem <;>
          by_cases hd2 : docComplete inp.doc = true <;>
          simp [hd2] at hmem
      · apply applyEffects_snd
        intro b2 u2 hmem
        rcases contentEffects_shape inp k with hc | ⟨h1, hc⟩ <;>
          rw [hc] at hmem <;>
          by_cases hd2 : docComplete inp.doc = true <;>
          simp [hd2] at hmem

def c3Doc : Post :=
  { emptyPost with
      msgBiz := some "B", msgMid := some "M", msgIdx := some "1",
      title := some "t", link := some "l", wechatId := some "w",
      html := some "<p>old</p>" }

def c3Profile : Profile :=
  { title := some "pt", wechatId := some "w", username := some "u", headimg := some "h" }

def c3Input : DetailInput :=
  { link := "https://mp/x"
    ident := { msgBiz := some "B", msgMid := some "M", msgIdx := some "1" }
    body := "<html>fine</html>"
    ex := { wechatId := some "w2", username := some "u2", title := some "t2",
            publishAt := some 3, sourceUrl := none, cover := none, digest := none,
            headimg := some "h2", nickname := some "n2",
            jsContentHtml := some "<p>new</p>" }
    doc := some c3Doc
    profile := some c3Profile
    cfg := { isSavePostContent := true, saveContentType := "html" } }

def c3Store : PostStore := fun _ => some c3Doc

def c3FStore : ProfileStore := fun _ => some c3Profile

theorem deepIngest_fill_gaps_only_witness :
    (∀ k, keyOf c3Input.ident = some k → c3Store k = c3Input.doc) ∧
    (fillGapsArticle c3Input c3Store c3FStore ∧ fillGapsProfile c3Input c3Store c3FStore) :=
  ⟨fun _ _ => rfl, deepIngest_fill_gaps_only c3Input c3Store c3FStore (fun _ _ => rfl)⟩

/-- C4: a fetched document containing an invalidation marker
(`global_error_msg` or `icon_msg warn`) makes the deep path persist exactly
one write — `isFail: true` upserted at the resolved identity — and nothing
else: no basic fields, no profile fields, no content body. -/
theorem deepIngest_invalid_only_isFail (inp : DetailInput) (k : PostKey)
    (hl : inp.link ≠ "") (hk : keyOf inp.ident = some k)
    (hm : (strContains inp.body "global_error_msg" ||
      strContains inp.body "icon_msg warn") = true) :
    getPostDetail inp = [Effect.postFail k] := by
  unfold getPostDetail
  rw [if_neg hl]
  simp only [hk, if_pos hm]

def c4Input : DetailInput :=
  { link := "https://mp/y"
    ident := { msgBiz := some "B4", msgMid := some "M4", msgIdx := some "1" }
    body := "<html><div class=\x22global_error_msg warn\x22>gone</div></html>"
    ex := { wechatId := none, username := none, title := none, publishAt := none,
            sourceUrl := none, cover := none, digest := none, headimg := none,
            nickname := none, jsContentHtml := none }
    doc := none
    profile := none
    cfg := { isSavePostContent := true, saveContentType := "html" } }

theorem deepIngest_invalid_only_isFail_witness :
    (c4Input.link ≠ "" ∧
      keyOf c4Input.ident = some ⟨"B4", "M4", "1"⟩ ∧
      (strContains c4Input.body "global_error_msg" ||
        strContains c4Input.body "icon_msg warn") = true) ∧
    getPostDetail c4Input = [Effect.postFail ⟨"B4", "M4", "1"⟩] :=
  ⟨⟨by decide, by decide, by decide⟩,
    deepIngest_invalid_only_isFail c4Input ⟨"B4", "M4", "1"⟩
      (by decide) (by decide) (by decide)⟩

/-- C5 (code evaluation): the existing record already has `html` and the
configured content type is `html`, yet the deep path still emits the
content-body write. In the source, `shouldSaveToDb` is initialised `true`
and both arms of the `if (doc)` check re-assign `true` (dead assignments),
so the configured skip never happens. -/
def c5Doc : Post :=
  { emptyPost with
      msgBiz := some "B5", msgMid := some "M5", msgIdx := some "2",
      title := some "t", link := some "l", wechatId := some "w",
      html := some "<p>already saved</p>" }

def c5Input : DetailInput :=
  { link := "https://mp/z"
    ident := { msgBiz := some "B5", msgMid := some "M5", msgIdx := some "2" }
    body := "<html>ok</html>"
    ex := { wechatId := none, username := none, title := none, publishAt := none,
            sourceUrl := none, cover := none, digest := none, headimg := none,
            nickname := none, jsContentHtml := some "<p>new body</p>" }
    doc := some c5Doc
    profile := some { title := some "pt", wechatId := some "w", username := some "u",
                      headimg := some "h" }
    cfg := { isSavePostContent := true, saveContentType := "html" } }

theorem getPostDetail_content_write_not_skipped :
    truthy c5Doc.html = true ∧ c5Input.cfg.saveContentType = "html" ∧
    c5Input.cfg.isSavePostContent = true ∧
    getPostDetail c5Input =
      [Effect.postContent ⟨"B5", "M5", "2"⟩
        (contentUpdate ⟨"B5", "M5", "2"⟩ (some "<p>new body</p>"))] := by
  refine ⟨by decide, rfl, rfl, ?_⟩
  decide

/-! ## The bulk listing-ingestion path `savePostsData`

Raw listing entries (`post_list` items of the batch payload). Sub-items of
`multi_app_msg_item_list` carry the same shape as the primary message object
minus the nesting, and the module reads the same fields off both. -/

structure AppMsgBase where
  title : Option String
  content_url : Option String
  cover : Option String
  digest : Option String
  source_url : Option String
  author : Option String
  copyright_stat : Option Nat
deriving DecidableEq

structure AppMsgExt extends AppMsgBase where
  multi_app_msg_item_list : Option (List AppMsgBase)
deriving DecidableEq

/-- One raw listing entry; `comm_msg_info_datetime` flattens the source's
`post.comm_msg_info.datetime` (epoch seconds). -/
structure ListingEntry where
  app_msg_ext_info : Option AppMsgExt
  comm_msg_info_datetime : Nat
deriving DecidableEq

/-- One candidate unit paired with its publish timestamp (milliseconds,
`datetime * 1000` as in `new Date(datetime * 1000)`). -/
structure PostUnit where
  appMsg : AppMsgBase
  publishAt : Nat
deriving DecidableEq

/-- The `postList.forEach` loop: skip entries without `app_msg_ext_info`,
push the primary message object with the entry's timestamp, then push each
sub-item of a nonempty `multi_app_msg_item_list` with the same timestamp. -/
def entryUnits (e : ListingEntry) : List PostUnit :=
  match e.app_msg_ext_info with
  | none => []
  | some appMsg =>
    let publishAt := e.comm_msg_info_datetime * 1000
    let first := [{ appMsg := appMsg.toAppMsgBase, publishAt := publishAt }]
    match appMsg.multi_app_msg_item_list with
    | some l => if l.length > 0 then first ++ l.map (fun a => { appMsg := a, publishAt := publishAt }) else first
    | none => first

def extractUnits (pl : List ListingEntry) : List PostUnit :=
  pl.flatMap entryUnits

/-- Modelled from the spec: `helper.escape2Html` (in `utils/helper`, which is
not part of this module's source) decodes the HTML-escaped title and link;
standard entity decoding for the amp, lt, gt, quot and apostrophe entities,
scanning left to right. -/
def escape2HtmlList : List Char → List Char
  | [] => []
  | '&' :: 'a' :: 'm' :: 'p' :: ';' :: r => '&' :: escape2HtmlList r
  | '&' :: 'l' :: 't' :: ';' :: r => '<' :: escape2HtmlList r
  | '&' :: 'g' :: 't' :: ';' :: r => '>' :: escape2HtmlList r
  | '&' :: 'q' :: 'u' :: 'o' :: 't' :: ';' :: r => '"' :: escape2HtmlList r
  | '&' :: '#' :: '3' :: '9' :: ';' :: r => Char.ofNat 39 :: escape2HtmlList r
  | c :: r => c :: escape2HtmlList r

/-- Modelled from the spec: decode the HTML-escaped link or title. -/
def escape2Html (s : String) : String :=
  String.mk (escape2HtmlList s.toList)

/-- The characters strictly after the first occurrence of `c`, if any. -/
def afterChar (c : Char) : List Char → Option (List Char)
  | [] => none
  | x :: r => if x = c then some r else afterChar c r

/-- The characters strictly before the first occurrence of `c` (all of them
when `c` does not occur). -/
def beforeChar (c : Char) : List Char → List Char
  | [] => []
  | x :: r => if x = c then [] else x :: beforeChar c r

/-- Split on every occurrence of `sep`. -/
def splitList (sep : Char) : List Char → List (List Char)
  | [] => [[]]
  | c :: r =>
    let rest := splitList sep r
    if c = sep then [] :: rest
    else
      match rest with
      | [] => [[c]]
      | h :: t => (c :: h) :: t

/-- Node `url.parse(link, true).query` (an external
collaborator): the key/value pairs of the query string — the part after the
first question mark, truncated at the first hash sign, split on ampersands,
each pair split at the first equals sign. Percent-decoding and the
duplicate-key array behaviour are not modelled; the module's links carry
plain, unique keys. -/
def queryPairs (link : String) : List (String × String) :=
  match afterChar '?' link.toList with
  | none => []
  | some r =>
    let q := beforeChar '#' r
    (splitList '&' q).map (fun p =>
      (String.mk (beforeChar '=' p), String.mk ((afterChar '=' p).getD [])))

def queryGet (ps : List (String × String)) (k : String) : Option String :=
  (ps.find? (fun p => p.1 = k)).map (fun p => p.2)

/-- Source line `const ... = url.parse(link, true).query` destructuring biz, mid, idx. -/
def parseIdent (link : String) : Option String × Option String × Option String :=
  let q := queryPairs link
  (queryGet q "__biz", queryGet q "mid", queryGet q "idx")

/-- The `models.Post` collection as keyed by the bulk path: the query filter
uses the parsed values directly, which may individually be missing. -/
def PostStoreB := (Option String × Option String × Option String) → Option Post

/-- Keys actually stored match the stored document's identity fields. -/
def WFStoreB (store : PostStoreB) : Prop :=
  ∀ k p, store k = some p → (p.msgBiz, p.msgMid, p.msgIdx) = k

def keyTriple (p : Post) : Option String × Option String × Option String :=
  (p.msgBiz, p.msgMid, p.msgIdx)

/-- Mongo `findOneAndUpdate(filterKey, {$set: u}, {new: true, upsert: true})` on
the bulk store: merge into the existing document or create one from the
filter key and the update, returning the merged document. -/
def upsertB (store : PostStoreB) (k : Option String × Option String × Option String)
    (u : Post) : PostStoreB × Post :=
  let base :=
    match store k with
    | some p => p
    | none => { emptyPost with msgBiz := k.1, msgMid := k.2.1, msgIdx := k.2.2 }
  let merged := applySet base u
  (upd store k (some merged), merged)

/-- The `$set` object of one bulk upsert (absent values are stripped from
the `$set` as mongoose does with `undefined`). -/
def bulkUpdateObj (u : PostUnit) : Post :=
  { emptyPost with
      title := some (escape2Html (u.appMsg.title.getD "")),
      link := some (escape2Html (u.appMsg.content_url.getD "")),
      publishAt := some u.publishAt,
      cover := u.appMsg.cover, digest := u.appMsg.digest,
      sourceUrl := u.appMsg.source_url, author := u.appMsg.author,
      copyrightStat := u.appMsg.copyright_stat }

/-- One iteration of the bulk `posts.map`: drop units without truthy title
and link; unescape both; parse the identity from the link; upsert; return
the merged document (`new: true`). -/
def processUnit (store : PostStoreB) (u : PostUnit) : PostStoreB × Option Post :=
  if !(truthy u.appMsg.title && truthy u.appMsg.content_url) then (store, none)
  else
    let k := parseIdent (escape2Html (u.appMsg.content_url.getD ""))
    let r := upsertB store k (bulkUpdateObj u)
    (r.1, some r.2)

/-- The bulk upserts in order (the concurrent `Promise.all` joined
sequentially; the result list keeps the element order). -/
def processUnits (store : PostStoreB) : List PostUnit → PostStoreB × List (Option Post)
  | [] => (store, [])
  | u :: r =>
    let s1 := processUnit store u
    let s2 := processUnits s1.1 r
    (s2.1, s1.2 :: s2.2)

/-- Source line `savedPosts = savedPosts.filter(p => p)`. -/
def bulkSaved (store : PostStoreB) (pl : List ListingEntry) : List Post :=
  ((processUnits store (extractUnits pl)).2).filterMap id

/-- The batch result if nothing after the upserts fails: the updated store
and the saved list. -/
def bulkCore (store : PostStoreB) (pl : List ListingEntry) : PostStoreB × List Post :=
  ((processUnits store (extractUnits pl)).1, bulkSaved store pl)

/-- The bulk path `savePostsData(postList)`: extract units, upsert them all,
filter the saved ones, then resolve the first saved unit's publisher profile
through the freshly constructed handler (one backing query); the lookup's
outcome feeds only logging, but a rejected lookup rejects the whole batch,
since no handler catches it. The publish-record write and the redis
queue-length log that follow are external collaborators that do not touch
the post store or the return value, and are not modelled. -/
def savePostsData (store : PostStoreB) (pl : List ListingEntry)
    (profileFind : Option String → Except String (Option Profile)) :
    Except String (PostStoreB × List Post) :=
  let r := processUnits store (extractUnits pl)
  let savedPosts := r.2.filterMap id
  match savedPosts with
  | [] => Except.ok (r.1, savedPosts)
  | p0 :: _ =>
    match profileFind p0.msgBiz with
    | Except.error e => Except.error e
    | Except.ok _ => Except.ok (r.1, savedPosts)

/-- The identity a unit contributes when it is kept. -/
def unitIdent (u : PostUnit) : Option (Option String × Option String × Option String) :=
  if !(truthy u.appMsg.title && truthy u.appMsg.content_url) then none
  else some (parseIdent (escape2Html (u.appMsg.content_url.getD "")))

/-- C7: a listing entry carrying a primary message object and a sub-item
array of length k yields exactly k+1 candidate units, every one of them
carrying the entry's publish timestamp. -/
theorem entry_units_count (e : ListingEntry) (a : AppMsgExt) (l : List AppMsgBase)
    (ha : e.app_msg_ext_info = some a) (hl : a.multi_app_msg_item_list = some l) :
    (entryUnits e).length = l.length + 1 ∧
      ∀ u ∈ entryUnits e, u.publishAt = e.comm_msg_info_datetime * 1000 := by
  unfold entryUnits
  rw [ha]
  dsimp only
  rw [hl]
  dsimp only
  by_cases h0 : l.length > 0
  · rw [if_pos h0]
    constructor
    · simp [Nat.add_comm]
    · intro u hu
      simp only [List.mem_append, List.mem_singleton, List.mem_map] at hu
      rcases hu with hu | ⟨x, _, hu⟩ <;> subst hu <;> rfl
  · rw [if_neg h0]
    constructor
    · have : l.length = 0 := Nat.eq_zero_of_not_pos h0
      simp [this]
    · intro u hu
      simp only [List.mem_singleton] at hu
      subst hu
      rfl

def c7Sub1 : AppMsgBase :=
  { title := some "s1", content_url := some "u1", cover := none, digest := none,
    source_url := none, author := none, copyright_stat := none }

def c7Sub2 : AppMsgBase :=
  { title := some "s2", content_url := some "u2", cover := none, digest := none,
    source_url := none, author := none, copyright_stat := none }

def c7Primary : AppMsgExt :=
  { title := some "p", content_url := some "u0", cover := none, digest := none,
    source_url := none, author := none, copyright_stat := none,
    multi_app_msg_item_list := some [c7Sub1, c7Sub2] }

def c7Entry : ListingEntry :=
  { app_msg_ext_info := some c7Primary, comm_msg_info_datetime := 7 }

theorem entry_units_count_witness :
    (c7Entry.app_msg_ext_info = some c7Primary ∧
      c7Primary.multi_app_msg_item_list = some [c7Sub1, c7Sub2]) ∧
    ((entryUnits c7Entry).length = [c7Sub1, c7Sub2].length + 1 ∧
      ∀ u ∈ entryUnits c7Entry, u.publishAt = c7Entry.comm_msg_info_datetime * 1000) :=
  ⟨⟨rfl, rfl⟩, entry_units_count c7Entry c7Primary [c7Sub1, c7Sub2] rfl rfl⟩

theorem keyTriple_applySet (p u : Post) (hb : u.msgBiz = none) (hm : u.msgMid = none)
    (hi : u.msgIdx = none) : keyTriple (applySet p u) = keyTriple p := by
  simp [keyTriple, applySet, mergeField, hb, hm, hi]

/-- A bulk upsert whose update carries no identity fields keeps the store
well-formed and returns a document keyed by the filter key. -/
theorem upsertB_spec (store : PostStoreB) (k : Option String × Option String × Option String)
    (u : Post) (hwf : WFStoreB store) (hb : u.msgBiz = none) (hm : u.msgMid = none)
    (hi : u.msgIdx = none) :
    WFStoreB (upsertB store k u).1 ∧ keyTriple (upsertB store k u).2 = k := by
  unfold upsertB
  dsimp only
  have hkey : ∀ base, keyTriple base = k → keyTriple (applySet base u) = k := by
    intro base hbase
    rw [keyTriple_applySet _ _ hb hm hi]
    exact hbase
  have hbase : keyTriple (match store k with
      | some p => p
      | none => { emptyPost with msgBiz := k.1, msgMid := k.2.1, msgIdx := k.2.2 }) = k := by
    cases hs : store k with
    | some p => exact hwf k p hs
    | none => rfl
  refine ⟨?_, hkey _ hbase⟩
  intro k2 p2 hp2
  by_cases hk : k2 = k
  · subst hk
    rw [upd_same] at hp2
    injection hp2 with hp2
    subst hp2
    exact hkey _ hbase
  · rw [upd_other _ _ hk] at hp2
    exact hwf k2 p2 hp2

/-- One bulk iteration: the store stays well-formed and the returned record,
when the unit is kept, is keyed by the identity parsed from the unescaped
link. -/
theorem processUnit_spec {store : PostStoreB} (hwf : WFStoreB store) (u : PostUnit) :
    WFStoreB (processUnit store u).1 ∧
      ((processUnit store u).2).map keyTriple = unitIdent u := by
  unfold processUnit unitIdent
  by_cases hg : (!(truthy u.appMsg.title && truthy u.appMsg.content_url)) = true
  · rw [if_pos hg, if_pos hg]
    exact ⟨hwf, rfl⟩
  · rw [if_neg hg, if_neg hg]
    obtain ⟨hw1, hk1⟩ := upsertB_spec store
      (parseIdent (escape2Html (u.appMsg.content_url.getD ""))) (bulkUpdateObj u)
      hwf rfl rfl rfl
    exact ⟨hw1, by rw [Option.map, hk1]⟩

theorem processUnits_spec : ∀ (units : List PostUnit) (store : PostStoreB),
    WFStoreB store →
    WFStoreB (processUnits store units).1 ∧
      (((processUnits store units).2.filterMap id).map keyTriple =
        units.filterMap unitIdent) := by
  intro units
  induction units with
  | nil => intro store h; exact ⟨h, rfl⟩
  | cons u r ih =>
    intro store hwf
    obtain ⟨hw1, hk1⟩ := processUnit_spec hwf u
    obtain ⟨hw2, hk2⟩ := ih _ hw1
    refine ⟨hw2, ?_⟩
    simp only [processUnits]
    cases hu : (processUnit store u).2 with
    | none =>
      have hiu : unitIdent u = none := by rw [← hk1, hu]; rfl
      simp [List.filterMap_cons, hiu, hk2]
    | some p =>
      have hiu : unitIdent u = some (keyTriple p) := by rw [← hk1, hu]; rfl
      simp [List.filterMap_cons, hiu, hk2]

/-- C6 (amended): every identity in the saved list of a bulk batch equals —
positionally — the (biz, mid, idx) triple parsed from the query parameters
of its unit's HTML-unescaped source link; the identities are unique whenever
the kept units' parsed triples are pairwise distinct (the code never
deduplicates, see the counterexample); and the example link parses to the
stated triple. -/
theorem bulk_saved_identities (store : PostStoreB) (pl : List ListingEntry)
    (hwf : WFStoreB store) :
    (bulkSaved store pl).map keyTriple = (extractUnits pl).filterMap unitIdent ∧
    (((extractUnits pl).filterMap unitIdent).Nodup →
      ((bulkSaved store pl).map keyTriple).Nodup) ∧
    parseIdent "https://host/s?__biz=Bz1&mid=Mid1&idx=2" =
      (some "Bz1", some "Mid1", some "2") := by
  obtain ⟨_, h⟩ := processUnits_spec (extractUnits pl) store hwf
  have hb : (bulkSaved store pl).map keyTriple = (extractUnits pl).filterMap unitIdent := h
  refine ⟨hb, ?_, by decide⟩
  intro hnd
  rw [hb]
  exact hnd

def emptyStoreB : PostStoreB := fun _ => none

theorem emptyStoreB_wf : WFStoreB emptyStoreB := by
  intro k p h
  exact Option.noConfusion h

def c6Unit : AppMsgExt :=
  { title := some "t", content_url := some "https://host/s?__biz=B&mid=M&idx=1",
    cover := none, digest := none, source_url := none, author := none,
    copyright_stat := none, multi_app_msg_item_list := none }

def c6Batch : List ListingEntry :=
  [{ app_msg_ext_info := some c6Unit, comm_msg_info_datetime := 1 },
   { app_msg_ext_info := some c6Unit, comm_msg_info_datetime := 2 }]

/-- C6 counterexample: a batch whose two entries carry the same source link
produces a saved list with two equal identities — the claimed uniqueness of
identities within a bulk result fails. -/
theorem bulk_identities_not_unique :
    (bulkSaved emptyStoreB c6Batch).map keyTriple =
      [(some "B", some "M", some "1"), (some "B", some "M", some "1")] ∧
    ¬ ((bulkSaved emptyStoreB c6Batch).map keyTriple).Nodup := by
  constructor
  · decide
  · decide

theorem bulk_saved_identities_witness :
    WFStoreB emptyStoreB ∧
    ((bulkSaved emptyStoreB c6Batch).map keyTriple =
        (extractUnits c6Batch).filterMap unitIdent ∧
      (((extractUnits c6Batch).filterMap unitIdent).Nodup →
        ((bulkSaved emptyStoreB c6Batch).map keyTriple).Nodup) ∧
      parseIdent "https://host/s?__biz=Bz1&mid=Mid1&idx=2" =
        (some "Bz1", some "Mid1", some "2")) :=
  ⟨emptyStoreB_wf, bulk_saved_identities emptyStoreB c6Batch emptyStoreB_wf⟩

/-- C9 (amended): the opportunistic profile resolution after the bulk
upserts feeds logging only — whenever the backing lookup returns (a found
profile or the absent result), the batch returns exactly the pure bulk
result, unaffected by the lookup's outcome; but when the lookup rejects and
the batch saved at least one unit, the rejection propagates and the whole
`savePostsData` call fails, since nothing catches it. -/
theorem bulk_profile_lookup_observability (store : PostStoreB) (pl : List ListingEntry) :
    (∀ f : Option String → Except String (Option Profile),
      (∀ b, ∃ v, f b = Except.ok v) →
      savePostsData store pl f = Except.ok (bulkCore store pl)) ∧
    (∀ (e : String) (p0 : Post) (rest : List Post), bulkSaved store pl = p0 :: rest →
      savePostsData store pl (fun _ => Except.error e) = Except.error e) := by
  constructor
  · intro f hf
    unfold savePostsData bulkCore bulkSaved
    dsimp only
    cases hs : (processUnits store (extractUnits pl)).2.filterMap id with
    | nil => rfl
    | cons p0 rest =>
      obtain ⟨v, hv⟩ := hf p0.msgBiz
      dsimp only
      rw [hv]
  · intro e p0 rest hs
    unfold savePostsData
    dsimp only
    rw [bulkSaved] at hs
    rw [hs]

def c9Unit : AppMsgExt :=
  { title := some "t", content_url := some "https://host/s?__biz=B9&mid=M9&idx=1",
    cover := none, digest := none, source_url := none, author := none,
    copyright_stat := none, multi_app_msg_item_list := none }

def c9Batch : List ListingEntry :=
  [{ app_msg_ext_info := some c9Unit, comm_msg_info_datetime := 5 }]

/-- The document the single unit of `c9Batch` saves on an empty store. -/
def c9Post : Post :=
  { emptyPost with
      msgBiz := some "B9", msgMid := some "M9", msgIdx := some "1",
      title := some "t", link := some "https://host/s?__biz=B9&mid=M9&idx=1",
      publishAt := some 5000 }

/-- C9 counterexample: the profile lookup for the first saved unit rejects,
and the whole batch — which did save a unit — fails instead of returning its
saved list. -/
theorem bulk_profile_lookup_error_fails_batch :
    bulkSaved emptyStoreB c9Batch = [c9Post] ∧
    savePostsData emptyStoreB c9Batch (fun _ => Except.error "findOne rejected") =
      Except.error "findOne rejected" := by
  constructor
  · decide
  · rfl

theorem bulk_profile_lookup_observability_witness :
    ((∀ b, ∃ v, (fun _ : Option String =>
        (Except.ok none : Except String (Option Profile))) b = Except.ok v) ∧
      bulkSaved emptyStoreB c9Batch = c9Post :: []) ∧
    (savePostsData emptyStoreB c9Batch (fun _ => Except.ok none) =
        Except.ok (bulkCore emptyStoreB c9Batch) ∧
      savePostsData emptyStoreB c9Batch (fun _ => Except.error "db down") =
        Except.error "db down") :=
  ⟨⟨fun _ => ⟨none, rfl⟩, by decide⟩,
    (bulk_profile_lookup_observability emptyStoreB c9Batch).1 _ (fun _ => ⟨none, rfl⟩),
    (bulk_profile_lookup_observability emptyStoreB c9Batch).2 "db down" c9Post []
      (by decide)⟩

/-! ## The standalone upsert primitive `upsertPosts` -/

/-- Source lines `const ... = post; if (!msgBiz || !msgMid ||
!msgIdx) return null;` -/
def keyComplete (p : Post) : Bool :=
  truthy p.msgBiz && truthy p.msgMid && truthy p.msgIdx

/-- One record of the `posts.map`: records without a complete identity
produce `null` and no write; the others upsert `{$set: post}` — the whole
record, full-overwrite — and return the merged document (`new: true`). -/
def upsertOne (store : PostStoreB) (p : Post) : PostStoreB × Option Post :=
  if !keyComplete p then (store, none)
  else
    let r := upsertB store (p.msgBiz, p.msgMid, p.msgIdx) p
    (r.1, some r.2)

/-- The `Promise.all` of the mapped upserts, joined sequentially; the result
list keeps the element order. -/
def upsertList (store : PostStoreB) : List Post → PostStoreB × List (Option Post)
  | [] => (store, [])
  | p :: r =>
    let s1 := upsertOne store p
    let s2 := upsertList s1.1 r
    (s2.1, s1.2 :: s2.2)

/-- The argument of `upsertPosts`: `null`/`undefined`, a single (non-array)
record, or an array of records. -/
inductive PostsArg where
  | null
  | single (p : Post)
  | array (l : List Post)
deriving DecidableEq

/-- The return value: `undefined` (falsy argument), one saved-or-null
record (non-array argument), or the list of saved-or-null records. -/
inductive UpsertResult where
  | undef
  | one (r : Option Post)
  | many (rs : List (Option Post))
deriving DecidableEq

/-- Source `upsertPosts(posts)`: `if (!posts) return;` then wrap a non-array
argument into a singleton, run the upserts, and return `res` for an array
argument or `res[0]` for a single one. -/
def upsertPosts (store : PostStoreB) (arg : PostsArg) : PostStoreB × UpsertResult :=
  match arg with
  | PostsArg.null => (store, UpsertResult.undef)
  | PostsArg.single p =>
    let r := upsertList store [p]
    (r.1, UpsertResult.one (r.2.head?.getD none))
  | PostsArg.array l =>
    let r := upsertList store l
    (r.1, UpsertResult.many r.2)

theorem truthy_isSome {o : Option String} (h : truthy o = true) : ∃ s, o = some s := by
  cases o
  · simp [truthy] at h
  · exact ⟨_, rfl⟩

/-- A complete-keyed record upserts to a document carrying the record's own
identity (the `$set` includes the identity fields). -/
theorem upsertOne_complete (store : PostStoreB) (p : Post) (h : keyComplete p = true) :
    ∃ m, upsertOne store p = ((upsertB store (p.msgBiz, p.msgMid, p.msgIdx) p).1, some m) ∧
      keyTriple m = keyTriple p := by
  unfold upsertOne
  rw [h]
  dsimp only
  refine ⟨_, rfl, ?_⟩
  simp only [keyComplete, Bool.and_eq_true] at h
  obtain ⟨s1, hs1⟩ := truthy_isSome h.1.1
  obtain ⟨s2, hs2⟩ := truthy_isSome h.1.2
  obtain ⟨s3, hs3⟩ := truthy_isSome h.2
  simp [upsertB, keyTriple, applySet, mergeField, hs1, hs2, hs3]

theorem upsertOne_incomplete (store : PostStoreB) (p : Post) (h : keyComplete p = false) :
    upsertOne store p = (store, none) := by
  unfold upsertOne
  rw [h]
  rfl

/-- The relation between an input record and its saved result. -/
def savedMatches (q : Post) (r : Option Post) : Prop :=
  keyComplete q = true → ∃ m, r = some m ∧ keyTriple m = keyTriple q

theorem upsertList_length : ∀ (l : List Post) (store : PostStoreB),
    (upsertList store l).2.length = l.length := by
  intro l
  induction l with
  | nil => intro store; rfl
  | cons p r ih =>
    intro store
    simp only [upsertList, List.length_cons, ih]

theorem upsertList_forall : ∀ (l : List Post) (store : PostStoreB),
    List.Forall₂ savedMatches l (upsertList store l).2 := by
  intro l
  induction l with
  | nil => intro store; exact List.Forall₂.nil
  | cons p r ih =>
    intro store
    refine List.Forall₂.cons ?_ (ih _)
    intro h
    obtain ⟨m, hm, hk⟩ := upsertOne_complete store p h
    exact ⟨m, by rw [hm], hk⟩

/-- C8: the standalone upsert primitive preserves cardinality: an array of n
records returns the `many` form with exactly n result slots, each
complete-keyed input record producing a saved document carrying that
record's identity (full `$set` overwrite includes the identity fields); a
single non-array record returns the `one` form — a single saved document,
not a one-element list. -/
theorem upsertPosts_cardinality (store : PostStoreB) (l : List Post) (p : Post)
    (hp : keyComplete p = true) :
    (upsertPosts store (PostsArg.array l)).2 = UpsertResult.many (upsertList store l).2 ∧
    (upsertList store l).2.length = l.length ∧
    List.Forall₂ savedMatches l (upsertList store l).2 ∧
    ∃ m, upsertPosts store (PostsArg.single p) =
      ((upsertOne store p).1, UpsertResult.one (some m)) ∧ keyTriple m = keyTriple p := by
  refine ⟨rfl, upsertList_length l store, upsertList_forall l store, ?_⟩
  obtain ⟨m, hm, hk⟩ := upsertOne_complete store p hp
  refine ⟨m, ?_, hk⟩
  simp only [upsertPosts, upsertList, hm]
  rfl

def c8A : Post :=
  { emptyPost with
      msgBiz := some "A1", msgMid := some "A2", msgIdx := some "A3",
      title := some "x1" }

def c8B : Post :=
  { emptyPost with
      msgBiz := some "B1", msgMid := some "B2", msgIdx := some "B3",
      digest := some "y2" }

theorem upsertPosts_cardinality_witness :
    keyComplete c8A = true ∧
    ((upsertPosts emptyStoreB (PostsArg.array [c8A, c8B])).2 =
        UpsertResult.many (upsertList emptyStoreB [c8A, c8B]).2 ∧
      (upsertList emptyStoreB [c8A, c8B]).2.length = [c8A, c8B].length ∧
      List.Forall₂ savedMatches [c8A, c8B] (upsertList emptyStoreB [c8A, c8B]).2 ∧
      ∃ m, upsertPosts emptyStoreB (PostsArg.single c8A) =
        ((upsertOne emptyStoreB c8A).1, UpsertResult.one (some m)) ∧
        keyTriple m = keyTriple c8A) :=
  ⟨by decide, upsertPosts_cardinality emptyStoreB [c8A, c8B] c8A (by decide)⟩

theorem upsertList_skip : ∀ (l : List Post) (store : PostStoreB),
    (upsertList store l).1 = (upsertList store (l.filter (fun q => keyComplete q))).1 := by
  intro l
  induction l with
  | nil => intro store; rfl
  | cons p r ih =>
    intro store
    by_cases h : keyComplete p = true
    · simp only [List.filter_cons, h, if_true]
      simp only [upsertList]
      exact ih _
    · have h2 : keyComplete p = false := by simpa using h
      simp only [List.filter_cons, h2]
      simp only [upsertList, upsertOne_incomplete store p h2]
      exact ih store

theorem upsertList_get_incomplete : ∀ (l : List Post) (i : Nat) (store : PostStoreB)
    (hi : i < l.length), keyComplete (l.get ⟨i, hi⟩) = false →
    (upsertList store l).2.get? i = some none := by
  intro l
  induction l with
  | nil => intro i store hi; simp at hi
  | cons p r ih =>
    intro i store hi h
    cases i with
    | zero =>
      simp only [List.get] at h
      simp only [upsertList, upsertOne_incomplete store p h]
      rfl
    | succ j =>
      simp only [List.get] at h
      simp only [upsertList]
      simp only [List.get?]
      exact ih j _ (Nat.lt_of_succ_lt_succ hi) h

/-- C10: a record whose identity is incomplete yields `null` at its position
and no store write happens for it (the final store equals the one obtained
from the complete-keyed records alone); a single such record yields `null`,
and a `null`/`undefined` argument returns `undefined` without touching the
store. -/
theorem upsertPosts_missing_id (store : PostStoreB) (p : Post) (l : List Post) (i : Nat)
    (hi : i < l.length) (hil : keyComplete (l.get ⟨i, hi⟩) = false)
    (hp : keyComplete p = false) :
    upsertPosts store PostsArg.null = (store, UpsertResult.undef) ∧
    (upsertList store l).1 = (upsertList store (l.filter (fun q => keyComplete q))).1 ∧
    (upsertList store l).2.get? i = some none ∧
    upsertPosts store (PostsArg.single p) = (store, UpsertResult.one none) := by
  refine ⟨rfl, upsertList_skip l store, upsertList_get_incomplete l i store hi hil, ?_⟩
  simp only [upsertPosts, upsertList, upsertOne_incomplete store p hp]
  rfl

def c10Bad : Post :=
  { emptyPost with msgBiz := some "Z1", msgIdx := some "Z3", title := some "no mid" }

theorem upsertPosts_missing_id_witness :
    (1 < [c8A, c10Bad].length ∧ keyComplete c10Bad = false) ∧
    (upsertPosts emptyStoreB PostsArg.null = (emptyStoreB, UpsertResult.undef) ∧
      (upsertList emptyStoreB [c8A, c10Bad]).1 =
        (upsertList emptyStoreB ([c8A, c10Bad].filter (fun q => keyComplete q))).1 ∧
      (upsertList emptyStoreB [c8A, c10Bad]).2.get? 1 = some none ∧
      upsertPosts emptyStoreB (PostsArg.single c10Bad) =
        (emptyStoreB, UpsertResult.one none)) :=
  ⟨⟨by decide, by decide⟩,
    upsertPosts_missing_id emptyStoreB c10Bad [c8A, c10Bad] 1 (by decide) (by decide)
      (by decide)⟩

end SavePostsData
